import Mathlib

/-!
Shallow embedding of `Gephi_Input_files_from_PD_data_v6.py`: the pipeline that
turns a per-patient chronological event log into the Gephi transition matrix,
edge table and node table.

A pandas dataframe row is modelled as a structure carrying the columns the core
pipeline reads (`ClientID`, `WardTeam`, `Setting`, the subgroup column value and
`LoSdays`); each pipeline stage is a pure function from row lists to row lists,
mirroring the source functions `create_new_ward_and_setting_columns`,
`categorise_columns`, `output_SM_file`, `output_Edge_file`, `output_Node_file`
and `create_output_files`.  Operations that raise Python exceptions are
modelled with `Option`, returning `none` where the source raises.
-/

/-- An input event row at the stage where the subgroup recoder runs: the columns
`ClientID`, `WardTeam`, `Setting`, the selected subgroup column's value
(`subgroup_info['COLUMN']`) and `LoSdays`. -/
structure Row where
  clientID : Nat
  wardTeam : String
  setting : String
  groupVal : String
  losDays : Rat
deriving DecidableEq

/-- A row after `create_new_ward_and_setting_columns` added the columns
`newWardTeam` and `newSetting`. -/
structure RowN where
  clientID : Nat
  wardTeam : String
  setting : String
  groupVal : String
  losDays : Rat
  newWardTeam : String
  newSetting : String
deriving DecidableEq

/-- A row after `categorise_columns` added the column `wardTeamCatCode`. -/
structure RowC where
  clientID : Nat
  wardTeam : String
  setting : String
  groupVal : String
  losDays : Rat
  newWardTeam : String
  newSetting : String
  wardTeamCatCode : Nat
deriving DecidableEq

/-- Worker for `uniqueFirst`: keeps each value's first occurrence, skipping
values already seen. -/
def uniqueFirstAux {α : Type} [DecidableEq α] : List α → List α → List α
  | _, [] => []
  | seen, a :: l =>
    if a ∈ seen then uniqueFirstAux seen l else a :: uniqueFirstAux (a :: seen) l

/-- First-occurrence deduplication: the model of pandas `Series.unique()`
(used at lines 140 and 461 of the source) and of
`DataFrame.drop_duplicates` keeping the first occurrence (line 249). -/
def uniqueFirst {α : Type} [DecidableEq α] (l : List α) : List α :=
  uniqueFirstAux [] l

/-- Sorted list of the distinct labels: the model of the category list built by
`astype('category')` in `categorise_columns` (line 103); pandas stores the
distinct string values sorted lexicographically. -/
def categoriesOf (ls : List String) : List String :=
  (uniqueFirst ls).insertionSort (· ≤ ·)

/-- Index of the first occurrence of `a`. -/
def idxOf (a : String) : List String → Nat
  | [] => 0
  | b :: l => if b = a then 0 else idxOf a l + 1

/-- Category code of a label, as produced by `categorise_columns` (line 106):
the label's position in the sorted distinct-label list, plus one, so codes run
from 1 to the number of distinct labels. -/
def catCode (ls : List String) (a : String) : Nat :=
  idxOf a (categoriesOf ls) + 1

/-- Model of `categorise_columns` (lines 99-107): adds `wardTeamCatCode`
computed from the `newWardTeam` column of the whole dataframe. -/
def categorise_columns (rows : List RowN) : List RowC :=
  rows.map (fun r =>
    ⟨r.clientID, r.wardTeam, r.setting, r.groupVal, r.losDays, r.newWardTeam, r.newSetting,
     catCode (rows.map (fun x => x.newWardTeam)) r.newWardTeam⟩)

/-- Model of one loop iteration body of `create_new_ward_and_setting_columns`
(lines 463-464): the masked numpy assignments
`npWardTeam[npColumn == v] = pre + v` and `npSetting[npColumn == v] = "Mixture"`.
The group column itself (`npColumn`) is never written, so `groupVal` is kept. -/
def applyMask (pre v : String) (rows : List Row) : List Row :=
  rows.map (fun r =>
    if r.groupVal = v then { r with wardTeam := pre ++ v, setting := "Mixture" } else r)

/-- Model of the `for notgroup in ... .unique()` loop of
`create_new_ward_and_setting_columns` (lines 461-464). -/
def collapseFold (pre g : String) (vals : List String) (rows : List Row) : List Row :=
  vals.foldl (fun acc v => if g ≠ v then applyMask pre v acc else acc) rows

/-- Model of `create_new_ward_and_setting_columns` (lines 446-475).  In the
`REPRESENT_REMOVED` branch the masked assignments write through numpy views of
the dataframe's own `WardTeam` and `Setting` columns, so the returned dataframe
has those columns mutated and `newWardTeam`/`newSetting` equal to them; in the
other branch the two new columns simply duplicate `WardTeam` and `Setting`. -/
def create_new_ward_and_setting_columns (represent : Bool) (pre g : String)
    (rows : List Row) : List RowN :=
  if represent then
    (collapseFold pre g (uniqueFirst (rows.map (fun r => r.groupVal))) rows).map
      (fun r => ⟨r.clientID, r.wardTeam, r.setting, r.groupVal, r.losDays, r.wardTeam, r.setting⟩)
  else
    rows.map
      (fun r => ⟨r.clientID, r.wardTeam, r.setting, r.groupVal, r.losDays, r.wardTeam, r.setting⟩)

/-- Model of line 521 of `create_network_data_for_subgroup`: rows whose
subgroup-column value is the sentinel string `"None"` are removed before any
subgroup is generated. -/
def remove_sentinel_rows (rows : List Row) : List Row :=
  rows.filter (fun r => decide (r.groupVal ≠ "None"))

/-- Largest `wardTeamCatCode` in the dataframe, the model of
`max(DATA_SG.wardTeamCatCode)` at line 135 (defined only for nonempty data;
the caller handles emptiness). -/
def maxCode (rows : List RowC) : Nat :=
  (rows.map (fun r => r.wardTeamCatCode)).foldl max 0

/-- Codes of one client's rows in dataframe order: the model of `cWardTeam`
at line 145. -/
def clientCodes (rows : List RowC) (id : Nat) : List Nat :=
  (rows.filter (fun r => decide (r.clientID = id))).map (fun r => r.wardTeamCatCode)

/-- Model of one `servMove[c1 - 1, c2 - 1] += 1` increment (line 150). -/
def bumpAt (m : Nat → Nat → Nat) (p : Nat × Nat) : Nat → Nat → Nat :=
  fun a b => if a = p.1 - 1 ∧ b = p.2 - 1 then m a b + 1 else m a b

/-- Model of the inner `for j in range(0, l - 1)` loop (lines 148-150): one
increment per consecutive pair of the client's code sequence. -/
def recordClient (m : Nat → Nat → Nat) (codes : List Nat) : Nat → Nat → Nat :=
  (codes.zip codes.tail).foldl bumpAt m

/-- Result of `output_SM_file`: the matrix dimension, the matrix itself (as a
total function, zero outside the written cells) and the `singles` record, which
starts as the scalar `0` (line 138) and has each one-admission client's id
stacked onto it (line 153). -/
structure SMOut where
  dim : Nat
  mat : Nat → Nat → Nat
  singles : List Nat

/-- Loop body of `output_SM_file` for one unique client id (lines 143-153). -/
def smStep (rows : List RowC) (acc : (Nat → Nat → Nat) × List Nat) (id : Nat) :
    (Nat → Nat → Nat) × List Nat :=
  if 1 < (clientCodes rows id).length then (recordClient acc.1 (clientCodes rows id), acc.2)
  else (acc.1, acc.2 ++ [id])

/-- Body of `output_SM_file` on nonempty data: the fold over the unique client
ids (lines 138-153), starting from the all-zero matrix and the scalar `0`
singles record. -/
def smResult (rows : List RowC) : SMOut :=
  ⟨maxCode rows,
   ((uniqueFirst (rows.map (fun r => r.clientID))).foldl (smStep rows) (fun _ _ => 0, [0])).1,
   ((uniqueFirst (rows.map (fun r => r.clientID))).foldl (smStep rows) (fun _ _ => 0, [0])).2⟩

/-- Model of `output_SM_file` (lines 125-161).  On an empty dataframe the
source raises `ValueError` (Python `max()` over the empty code column at
line 135), modelled as `none`. -/
def output_SM_file (rows : List RowC) : Option SMOut :=
  match rows with
  | [] => none
  | _ :: _ => some (smResult rows)

/-- One row of the Gephi edge file. -/
structure EdgeRow where
  source : Nat
  target : Nat
  typ : String
  id : Nat
  weight : Nat
deriving DecidableEq

/-- Model of the double loop of `output_Edge_file` (lines 193-198): outer loop
over the column index `i` (the target), inner loop over the row index `j`
(the source), emitting `(j + 1, i + 1, servMove[j, i])` whenever the cell is
positive. -/
def edgeTriples (n : Nat) (m : Nat → Nat → Nat) : List (Nat × Nat × Nat) :=
  (List.range n).flatMap (fun i =>
    ((List.range n).filter (fun j => decide (0 < m j i))).map (fun j => (j + 1, i + 1, m j i)))

/-- Model of `output_Edge_file` (lines 179-213): the emitted triples with the
constant type string and the sequential 0-based edge id (`np.arange`,
line 203) attached in emission order. -/
def output_Edge_file (n : Nat) (m : Nat → Nat → Nat) : List EdgeRow :=
  (edgeTriples n m).enum.map (fun q => ⟨q.2.1, q.2.2.1, "Directed", q.1, q.2.2.2⟩)

/-- Arithmetic mean, the model of pandas `.mean()` (line 239). -/
def meanList (l : List Rat) : Rat := l.sum / (l.length : Rat)

/-- Model of pandas `.median()` (line 240): sort, then take the middle value,
or the average of the two middle values when the count is even. -/
def medianList (l : List Rat) : Rat :=
  let s := l.insertionSort (· ≤ ·)
  if l.length % 2 = 1 then s.getD (l.length / 2) 0
  else (s.getD (l.length / 2 - 1) 0 + s.getD (l.length / 2) 0) / 2

/-- Durations of the rows carrying one category code: the groupby groups of
lines 239-240. -/
def groupLoS (rows : List RowC) (c : Nat) : List Rat :=
  (rows.filter (fun r => decide (r.wardTeamCatCode = c))).map (fun r => r.losDays)

/-- One row of the Gephi node file. -/
structure NodeRow where
  id : Nat
  label : String
  meanLoS : Rat
  medianLoS : Rat
  setting : String
deriving DecidableEq

/-- Distinct `(wardTeamCatCode, wardTeamCat, newSetting)` triples of the
dataframe, first occurrence kept: the model of `drop_duplicates` at line 249
(`wardTeamCat` holds the same strings as `newWardTeam`). -/
def nodeTriples (rows : List RowC) : List (Nat × String × String) :=
  uniqueFirst (rows.map (fun r => (r.wardTeamCatCode, r.newWardTeam, r.newSetting)))

/-- Triples after `sort_values('wardTeamCatCode')` (line 250), a stable sort. -/
def sortedNodeTriples (rows : List RowC) : List (Nat × String × String) :=
  (nodeTriples rows).insertionSort (fun a b => a.1 ≤ b.1)

/-- Sorted distinct codes: the index of the `groupby('wardTeamCatCode')`
aggregates at lines 239-240 (pandas groupby sorts group keys ascending). -/
def sortedCodes (rows : List RowC) : List Nat :=
  (uniqueFirst (rows.map (fun r => r.wardTeamCatCode))).insertionSort (· ≤ ·)

/-- Message of the `ValueError` that numpy's `vstack` raises when the stacked
1-d arrays have different lengths (the failure mode of line 253).  It is a
fixed string about array shapes; it never mentions any ward-team label. -/
def numpyVstackMsg : String :=
  "all the input array dimensions except for the concatenation axis must match exactly"

/-- Model of `output_Node_file` (lines 231-262) with the exception channel
explicit.  The source stacks the deduplicated label/code/setting columns next
to the groupby mean/median columns with `np.vstack` (line 253); when a label
carries more than one setting the deduplicated frame has more rows than the
groupby result and `np.vstack` raises a `ValueError` carrying only its fixed
shape-mismatch message, modelled as `Except.error numpyVstackMsg`. -/
def output_Node_file_exc (rows : List RowC) : Except String (List NodeRow) :=
  let t := sortedNodeTriples rows
  let c := sortedCodes rows
  if t.length = c.length then
    Except.ok ((t.zip c).map (fun q =>
      ⟨q.1.1, q.1.2.1, meanList (groupLoS rows q.2), medianList (groupLoS rows q.2), q.1.2.2⟩))
  else Except.error numpyVstackMsg

/-- Model of `output_Node_file` as seen by a caller that only distinguishes
completion from failure: `none` where the source raises. -/
def output_Node_file (rows : List RowC) : Option (List NodeRow) :=
  (output_Node_file_exc rows).toOption

/-- Outputs of one run. -/
structure RunOutput where
  servMove : SMOut
  edges : List EdgeRow
  nodes : List NodeRow

/-- Model of `create_output_files` (lines 274-296): the three output functions
run in sequence; an exception in any of them aborts the run (`none`). -/
def create_output_files (rows : List RowC) : Option RunOutput :=
  match output_SM_file rows with
  | none => none
  | some sm =>
    match output_Node_file rows with
    | none => none
    | some nd => some ⟨sm, output_Edge_file sm.dim sm.mat, nd⟩

/-- Total count of the matrix cells inside the `n × n` frame. -/
def matSum (n : Nat) (m : Nat → Nat → Nat) : Nat :=
  ∑ a ∈ Finset.range n, ∑ b ∈ Finset.range n, m a b

/-! Helper lemmas about `uniqueFirst`. -/

theorem mem_uniqueFirstAux {α : Type} [DecidableEq α] :
    ∀ (l seen : List α) (x : α), x ∈ uniqueFirstAux seen l ↔ x ∈ l ∧ x ∉ seen := by
  intro l
  induction l with
  | nil => intro seen x; simp [uniqueFirstAux]
  | cons a t ih =>
    intro seen x
    rw [uniqueFirstAux]
    by_cases ha : a ∈ seen
    · rw [if_pos ha, ih]
      constructor
      · rintro ⟨hx, hs⟩
        exact ⟨List.mem_cons_of_mem a hx, hs⟩
      · rintro ⟨hx, hs⟩
        rcases List.mem_cons.1 hx with rfl | hx
        · exact absurd ha hs
        · exact ⟨hx, hs⟩
    · rw [if_neg ha]
      simp only [List.mem_cons, ih]
      constructor
      · rintro (rfl | ⟨hx, hs⟩)
        · exact ⟨Or.inl rfl, ha⟩
        · exact ⟨Or.inr hx, fun hmem => hs (Or.inr hmem)⟩
      · rintro ⟨rfl | hx, hs⟩
        · exact Or.inl rfl
        · by_cases hxa : x = a
          · exact Or.inl hxa
          · refine Or.inr ⟨hx, fun hmem => ?_⟩
            rcases hmem with h | h
            · exact hxa h
            · exact hs h

theorem nodup_uniqueFirstAux {α : Type} [DecidableEq α] :
    ∀ (l seen : List α), (uniqueFirstAux seen l).Nodup := by
  intro l
  induction l with
  | nil => intro seen; rw [uniqueFirstAux]; exact List.nodup_nil
  | cons a t ih =>
    intro seen
    rw [uniqueFirstAux]
    by_cases ha : a ∈ seen
    · rw [if_pos ha]; exact ih seen
    · rw [if_neg ha]
      refine List.Nodup.cons ?_ (ih (a :: seen))
      intro hmem
      have := ((mem_uniqueFirstAux t (a :: seen) a).1 hmem).2
      exact this (List.mem_cons_self a seen)

theorem mem_uniqueFirst {α : Type} [DecidableEq α] (l : List α) (x : α) :
    x ∈ uniqueFirst l ↔ x ∈ l := by
  rw [uniqueFirst, mem_uniqueFirstAux]
  simp

theorem nodup_uniqueFirst {α : Type} [DecidableEq α] (l : List α) :
    (uniqueFirst l).Nodup :=
  nodup_uniqueFirstAux l []

theorem toFinset_uniqueFirst {α : Type} [DecidableEq α] (l : List α) :
    (uniqueFirst l).toFinset = l.toFinset := by
  ext x
  simp [List.mem_toFinset, mem_uniqueFirst]

theorem length_uniqueFirst {α : Type} [DecidableEq α] (l : List α) :
    (uniqueFirst l).length = l.toFinset.card := by
  rw [← toFinset_uniqueFirst]
  exact (List.toFinset_card_of_nodup (nodup_uniqueFirst l)).symm

/-! Helper lemmas about `List.foldl max`. -/

theorem le_foldl_max (l : List Nat) (a : Nat) : a ≤ l.foldl max a := by
  induction l generalizing a with
  | nil => exact le_rfl
  | cons b t ih => exact le_trans (Nat.le_max_left a b) (ih (max a b))

theorem le_foldl_max_of_mem {l : List Nat} {x : Nat} (h : x ∈ l) (a : Nat) :
    x ≤ l.foldl max a := by
  induction l generalizing a with
  | nil => cases h
  | cons b t ih =>
    rcases List.mem_cons.1 h with rfl | h
    · exact le_trans (Nat.le_max_right a x) (le_foldl_max t _)
    · exact ih h _

theorem foldl_max_mem (l : List Nat) (a : Nat) : l.foldl max a ∈ l ∨ l.foldl max a = a := by
  induction l generalizing a with
  | nil => exact Or.inr rfl
  | cons b t ih =>
    show t.foldl max (max a b) ∈ b :: t ∨ t.foldl max (max a b) = a
    rcases ih (max a b) with h | h
    · exact Or.inl (List.mem_cons_of_mem b h)
    · rcases Nat.le_total a b with hab | hab
      · refine Or.inl ?_
        rw [h, Nat.max_eq_right hab]
        exact List.mem_cons_self b t
      · refine Or.inr ?_
        rw [h, Nat.max_eq_left hab]

/-! Helper lemmas about `idxOf`, `categoriesOf` and `catCode`. -/

theorem idxOf_lt_length {a : String} : ∀ {l : List String}, a ∈ l → idxOf a l < l.length := by
  intro l
  induction l with
  | nil => intro h; cases h
  | cons b t ih =>
    intro h
    rw [idxOf]
    by_cases hb : b = a
    · simp [hb]
    · rw [if_neg hb]
      have : a ∈ t := by
        rcases List.mem_cons.1 h with rfl | h
        · exact absurd rfl hb
        · exact h
      simpa using ih this

theorem idxOf_lt_iff :
    ∀ {l : List String}, l.Pairwise (fun a b => a < b) →
      ∀ {a b : String}, a ∈ l → b ∈ l → (idxOf a l < idxOf b l ↔ a < b) := by
  intro l
  induction l with
  | nil => intro _ a b h; cases h
  | cons c t ih =>
    intro hp a b ha hb
    have hct : ∀ x ∈ t, c < x := fun x hx => List.rel_of_pairwise_cons hp hx
    have hpt : t.Pairwise (fun a b => a < b) := List.Pairwise.of_cons hp
    have hid0 : idxOf c (c :: t) = 0 := by simp [idxOf]
    by_cases hac : c = a <;> by_cases hbc : c = b
    · rw [← hac, ← hbc, hid0]
      exact iff_of_false (lt_irrefl 0) (lt_irrefl c)
    · have hbt : b ∈ t := by
        rcases List.mem_cons.1 hb with rfl | h
        · exact absurd rfl hbc
        · exact h
      have h1 : idxOf b (c :: t) = idxOf b t + 1 := by rw [idxOf, if_neg hbc]
      rw [← hac, hid0, h1]
      exact iff_of_true (Nat.succ_pos _) (hct b hbt)
    · have hat : a ∈ t := by
        rcases List.mem_cons.1 ha with rfl | h
        · exact absurd rfl hac
        · exact h
      have h1 : idxOf a (c :: t) = idxOf a t + 1 := by rw [idxOf, if_neg hac]
      rw [← hbc, hid0, h1]
      exact iff_of_false (by omega) (lt_asymm (hct a hat))
    · have hat : a ∈ t := by
        rcases List.mem_cons.1 ha with rfl | h
        · exact absurd rfl hac
        · exact h
      have hbt : b ∈ t := by
        rcases List.mem_cons.1 hb with rfl | h
        · exact absurd rfl hbc
        · exact h
      rw [idxOf, idxOf, if_neg hac, if_neg hbc, Nat.succ_lt_succ_iff]
      exact ih hpt hat hbt

theorem exists_idxOf_eq :
    ∀ {l : List String}, l.Pairwise (fun a b => a < b) →
      ∀ {k : Nat}, k < l.length → ∃ a ∈ l, idxOf a l = k := by
  intro l
  induction l with
  | nil => intro _ k hk; cases hk
  | cons c t ih =>
    intro hp k hk
    have hct : ∀ x ∈ t, c < x := fun x hx => List.rel_of_pairwise_cons hp hx
    have hpt : t.Pairwise (fun a b => a < b) := List.Pairwise.of_cons hp
    cases k with
    | zero => exact ⟨c, List.mem_cons_self c t, by simp [idxOf]⟩
    | succ k =>
      have hk' : k < t.length := Nat.lt_of_succ_lt_succ (by simpa using hk)
      obtain ⟨a, hat, hidx⟩ := ih hpt hk'
      refine ⟨a, List.mem_cons_of_mem c hat, ?_⟩
      have hca : c ≠ a := ne_of_lt (hct a hat)
      rw [idxOf, if_neg hca, hidx]

/-! Helper lemmas about `categoriesOf` and `catCode`. -/

theorem perm_categoriesOf (ls : List String) : (categoriesOf ls).Perm (uniqueFirst ls) :=
  List.perm_insertionSort _ _

theorem mem_categoriesOf {ls : List String} {a : String} :
    a ∈ categoriesOf ls ↔ a ∈ ls :=
  ((perm_categoriesOf ls).mem_iff).trans (mem_uniqueFirst ls a)

theorem nodup_categoriesOf (ls : List String) : (categoriesOf ls).Nodup :=
  ((perm_categoriesOf ls).nodup_iff).2 (nodup_uniqueFirst ls)

theorem sorted_categoriesOf (ls : List String) :
    (categoriesOf ls).Sorted (fun a b => a ≤ b) :=
  List.sorted_insertionSort _ _

theorem length_categoriesOf (ls : List String) :
    (categoriesOf ls).length = ls.toFinset.card := by
  rw [(perm_categoriesOf ls).length_eq]
  exact length_uniqueFirst ls

theorem pairwise_lt_categoriesOf (ls : List String) :
    (categoriesOf ls).Pairwise (fun a b => a < b) := by
  have h := (sorted_categoriesOf ls).and (nodup_categoriesOf ls)
  exact h.imp (fun hab => lt_of_le_of_ne hab.1 hab.2)

theorem catCode_lt_iff {ls : List String} {a b : String} (ha : a ∈ ls) (hb : b ∈ ls) :
    catCode ls a < catCode ls b ↔ a < b := by
  unfold catCode
  rw [Nat.add_lt_add_iff_right]
  exact idxOf_lt_iff (pairwise_lt_categoriesOf ls) (mem_categoriesOf.2 ha) (mem_categoriesOf.2 hb)

theorem catCode_inj {ls : List String} {a b : String} (ha : a ∈ ls) (hb : b ∈ ls)
    (h : catCode ls a = catCode ls b) : a = b := by
  by_contra hne
  rcases lt_or_gt_of_ne hne with hlt | hgt
  · have := (catCode_lt_iff ha hb).2 hlt
    omega
  · have := (catCode_lt_iff hb ha).2 hgt
    omega

theorem one_le_catCode (ls : List String) (a : String) : 1 ≤ catCode ls a :=
  Nat.succ_le_succ (Nat.zero_le _)

theorem catCode_le_card {ls : List String} {a : String} (ha : a ∈ ls) :
    catCode ls a ≤ ls.toFinset.card := by
  have h := idxOf_lt_length (mem_categoriesOf.2 ha)
  rw [length_categoriesOf] at h
  unfold catCode
  omega

theorem catCode_image (ls : List String) :
    ls.toFinset.image (catCode ls) = Finset.Icc 1 ls.toFinset.card := by
  ext k
  simp only [Finset.mem_image, List.mem_toFinset, Finset.mem_Icc]
  constructor
  · rintro ⟨a, ha, rfl⟩
    exact ⟨one_le_catCode ls a, catCode_le_card ha⟩
  · rintro ⟨h1, h2⟩
    have hk : k - 1 < (categoriesOf ls).length := by
      rw [length_categoriesOf]
      omega
    obtain ⟨a, hamem, hidx⟩ := exists_idxOf_eq (pairwise_lt_categoriesOf ls) hk
    refine ⟨a, mem_categoriesOf.1 hamem, ?_⟩
    unfold catCode
    omega

theorem catCode_perm {ls ls' : List String} (h : ls.Perm ls') (a : String) :
    catCode ls a = catCode ls' a := by
  have hperm : (uniqueFirst ls).Perm (uniqueFirst ls') :=
    List.perm_of_nodup_nodup_toFinset_eq (nodup_uniqueFirst ls) (nodup_uniqueFirst ls')
      (by rw [toFinset_uniqueFirst, toFinset_uniqueFirst]
          exact List.toFinset_eq_of_perm _ _ h)
  have hcats : categoriesOf ls = categoriesOf ls' :=
    List.eq_of_perm_of_sorted
      ((perm_categoriesOf ls).trans (hperm.trans (perm_categoriesOf ls').symm))
      (sorted_categoriesOf ls) (sorted_categoriesOf ls')
  rw [catCode, catCode, hcats]

/-- C4: on any input label list, the category encoder's id assignment is a
strict order-isomorphism with lexicographic label ordering, its image on the
distinct labels is exactly `1..N` (`N` the number of distinct labels), it is
injective on the labels present, and it only depends on the multiset of rows,
not on their order. -/
theorem C4_category_encoder_order_iso (ls : List String) :
    (∀ a ∈ ls, ∀ b ∈ ls, a ≠ b → (catCode ls a < catCode ls b ↔ a < b))
    ∧ ls.toFinset.image (catCode ls) = Finset.Icc 1 ls.toFinset.card
    ∧ (∀ a ∈ ls, ∀ b ∈ ls, catCode ls a = catCode ls b → a = b)
    ∧ (∀ ls' : List String, ls.Perm ls' → ∀ a : String, catCode ls a = catCode ls' a) :=
  ⟨fun a ha b hb _ => catCode_lt_iff ha hb,
   catCode_image ls,
   fun a ha b hb h => catCode_inj ha hb h,
   fun _ h a => catCode_perm h a⟩

/-- Witness for C4 at a concrete input: two labels in reversed file order. -/
theorem C4_category_encoder_order_iso_witness :
    (catCode ["b", "a"] "a" < catCode ["b", "a"] "b" ↔ "a" < "b")
    ∧ (catCode ["b", "a"] "a" = catCode ["b", "a"] "b" → "a" = "b")
    ∧ catCode ["b", "a"] "z" = catCode ["a", "b"] "z" :=
  ⟨(C4_category_encoder_order_iso ["b", "a"]).1 "a" (by decide) "b" (by decide) (by decide),
   (C4_category_encoder_order_iso ["b", "a"]).2.2.1 "a" (by decide) "b" (by decide),
   (C4_category_encoder_order_iso ["b", "a"]).2.2.2 ["a", "b"] (by decide) "z"⟩

/-! Helper lemmas about the edge extractor. -/

theorem mem_edgeTriples {n : Nat} {m : Nat → Nat → Nat} {t : Nat × Nat × Nat} :
    t ∈ edgeTriples n m ↔
      ∃ s tg, s < n ∧ tg < n ∧ 0 < m s tg ∧ t = (s + 1, tg + 1, m s tg) := by
  simp only [edgeTriples, List.mem_flatMap, List.mem_map, List.mem_filter, List.mem_range,
    decide_eq_true_eq]
  constructor
  · rintro ⟨i, hi, j, ⟨hj, hpos⟩, rfl⟩
    exact ⟨j, i, hj, hi, hpos, rfl⟩
  · rintro ⟨s, tg, hs, htg, hpos, rfl⟩
    exact ⟨tg, htg, s, ⟨hs, hpos⟩, rfl⟩

theorem edges_map_triple (n : Nat) (m : Nat → Nat → Nat) :
    (output_Edge_file n m).map (fun e => (e.source, e.target, e.weight)) = edgeTriples n m := by
  unfold output_Edge_file
  rw [List.map_map]
  have hcomp : ((fun e : EdgeRow => (e.source, e.target, e.weight)) ∘
      (fun q : Nat × Nat × Nat × Nat =>
        (⟨q.2.1, q.2.2.1, "Directed", q.1, q.2.2.2⟩ : EdgeRow))) =
      (Prod.snd : Nat × Nat × Nat × Nat → Nat × Nat × Nat) := by
    funext q
    rfl
  rw [hcomp, List.enum_map_snd]

theorem length_filter_list_range (p : Nat → Prop) [DecidablePred p] :
    ∀ n, ((List.range n).filter (fun j => decide (p j))).length =
      ∑ j ∈ Finset.range n, if p j then 1 else 0 := by
  intro n
  induction n with
  | zero => simp
  | succ k ih =>
    rw [List.range_succ, List.filter_append, List.length_append, Finset.sum_range_succ, ih]
    by_cases hp : p k <;> simp [hp]

theorem list_map_range_sum (g : Nat → Nat) (n : Nat) :
    ((List.range n).map g).sum = ∑ i ∈ Finset.range n, g i := by
  induction n with
  | zero => simp
  | succ k ih =>
    rw [List.range_succ, List.map_append, List.sum_append, Finset.sum_range_succ, ih]
    simp

theorem length_edgeTriples (n : Nat) (m : Nat → Nat → Nat) :
    (edgeTriples n m).length =
      ((Finset.range n ×ˢ Finset.range n).filter (fun p => 0 < m p.1 p.2)).card := by
  unfold edgeTriples
  rw [List.length_flatMap, Finset.card_filter, Finset.sum_product, Finset.sum_comm]
  have hmap : (List.map
      (List.length ∘ fun i =>
        ((List.range n).filter (fun j => decide (0 < m j i))).map (fun j => (j + 1, i + 1, m j i)))
      (List.range n)) =
      List.map (fun i => ((List.range n).filter (fun j => decide (0 < m j i))).length)
        (List.range n) := by
    refine List.map_congr_left ?_
    intro i _
    simp [List.length_map]
  rw [hmap, list_map_range_sum]
  refine Finset.sum_congr rfl ?_
  intro i _
  exact length_filter_list_range (fun j => 0 < m j i) n

/-- C2: for every `n × n` matrix handed to the edge extractor, the emitted edge
set is exactly the nonzero-cell set: the edge-row count equals the number of
cells with a positive value, every edge's weight equals the matrix cell at
`(source - 1, target - 1)` exactly, and every positive cell — self-loop cells
included — yields an edge with that source, target and weight. -/
theorem C2_edge_table_exact (n : Nat) (m : Nat → Nat → Nat) :
    (output_Edge_file n m).length =
        ((Finset.range n ×ˢ Finset.range n).filter (fun p => 0 < m p.1 p.2)).card
    ∧ (∀ e ∈ output_Edge_file n m,
        1 ≤ e.source ∧ e.source ≤ n ∧ 1 ≤ e.target ∧ e.target ≤ n ∧
        e.weight = m (e.source - 1) (e.target - 1) ∧ 0 < e.weight)
    ∧ (∀ s t, s < n → t < n → 0 < m s t →
        ∃ e ∈ output_Edge_file n m, e.source = s + 1 ∧ e.target = t + 1 ∧ e.weight = m s t) := by
  refine ⟨?_, ?_, ?_⟩
  · rw [← length_edgeTriples]
    unfold output_Edge_file
    rw [List.length_map, List.enum_length]
  · intro e he
    have hmem : (e.source, e.target, e.weight) ∈ edgeTriples n m := by
      rw [← edges_map_triple n m]
      exact List.mem_map_of_mem _ he
    rcases mem_edgeTriples.1 hmem with ⟨s, tg, hs, htg, hpos, heq⟩
    have h1 : e.source = s + 1 := congrArg Prod.fst heq
    have h2 : e.target = tg + 1 := congrArg Prod.fst (congrArg Prod.snd heq)
    have h3 : e.weight = m s tg := congrArg Prod.snd (congrArg Prod.snd heq)
    refine ⟨by omega, by omega, by omega, by omega, ?_, by omega⟩
    rw [h1, h2, h3]
    simp
  · intro s t hs ht hpos
    have hmem : (s + 1, t + 1, m s t) ∈ edgeTriples n m :=
      mem_edgeTriples.2 ⟨s, t, hs, ht, hpos, rfl⟩
    rw [← edges_map_triple n m] at hmem
    rcases List.mem_map.1 hmem with ⟨e, he, heq⟩
    exact ⟨e, he, congrArg Prod.fst heq, congrArg Prod.fst (congrArg Prod.snd heq),
      congrArg Prod.snd (congrArg Prod.snd heq)⟩

/-- Concrete 2 × 2 matrix, with a self-loop cell, used by the C2 witness. -/
def exM : Nat → Nat → Nat :=
  fun a b => if a = 0 ∧ b = 0 then 2 else if a = 1 ∧ b = 0 then 1 else 0

/-- Witness for C2: the positive self-loop cell `(0,0)` of `exM` yields an edge
with exact weight. -/
theorem C2_edge_table_exact_witness :
    0 < exM 0 0
      ∧ ∃ e ∈ output_Edge_file 2 exM,
          e.source = 0 + 1 ∧ e.target = 0 + 1 ∧ e.weight = exM 0 0 :=
  ⟨by decide, (C2_edge_table_exact 2 exM).2.2 0 0 (by decide) (by decide) (by decide)⟩

/-- C3: edge ids start at 0 and increment by 1 in the exact emission order:
the id column of the edge table equals `0, 1, 2, ...`, and the emitted rows are
strictly increasing in (target, source) lexicographic order — target ascending
in the outer loop, source ascending in the inner loop. -/
theorem C3_edge_ids_sequential (n : Nat) (m : Nat → Nat → Nat) :
    (output_Edge_file n m).map (fun e => e.id) = List.range (output_Edge_file n m).length
    ∧ (output_Edge_file n m).Pairwise
        (fun e₁ e₂ => e₁.target < e₂.target ∨ (e₁.target = e₂.target ∧ e₁.source < e₂.source)) := by
  constructor
  · unfold output_Edge_file
    rw [List.map_map, List.length_map, List.enum_length]
    have hcomp : ((fun e : EdgeRow => e.id) ∘
        (fun q : Nat × Nat × Nat × Nat =>
          (⟨q.2.1, q.2.2.1, "Directed", q.1, q.2.2.2⟩ : EdgeRow))) =
        (Prod.fst : Nat × (Nat × Nat × Nat) → Nat) := by
      funext q
      rfl
    rw [hcomp, List.enum_map_fst]
  · have hS : (edgeTriples n m).Pairwise
        (fun t₁ t₂ => t₁.2.1 < t₂.2.1 ∨ (t₁.2.1 = t₂.2.1 ∧ t₁.1 < t₂.1)) := by
      unfold edgeTriples
      rw [List.pairwise_flatMap]
      constructor
      · intro i _
        rw [List.pairwise_map]
        have hlt : ((List.range n).filter (fun j => decide (0 < m j i))).Pairwise (· < ·) :=
          List.Pairwise.sublist (List.filter_sublist _) (List.pairwise_lt_range n)
        exact hlt.imp (fun h => Or.inr ⟨rfl, Nat.succ_lt_succ h⟩)
      · refine (List.pairwise_lt_range n).imp ?_
        intro i₁ i₂ h x hx y hy
        rcases List.mem_map.1 hx with ⟨j₁, _, rfl⟩
        rcases List.mem_map.1 hy with ⟨j₂, _, rfl⟩
        exact Or.inl (Nat.succ_lt_succ h)
    have h1 : List.Pairwise (fun t₁ t₂ => t₁.2.1 < t₂.2.1 ∨ (t₁.2.1 = t₂.2.1 ∧ t₁.1 < t₂.1))
        ((edgeTriples n m).enum.map Prod.snd) := by
      rw [List.enum_map_snd]
      exact hS
    have h2 := (List.pairwise_map).1 h1
    unfold output_Edge_file
    rw [List.pairwise_map]
    exact h2.imp (fun h => h)

/-- C5 counterexample: the claim says a run with zero events completes cleanly
with empty outputs; in fact the pipeline aborts — `output_SM_file` hits Python
`max()` of the empty code column and raises, so no run output exists. -/
theorem C5_empty_run_counterexample :
    ¬ ∃ out, create_output_files ([] : List RowC) = some out := by
  rintro ⟨out, h⟩
  have h0 : create_output_files ([] : List RowC) = none := rfl
  rw [h0] at h
  cases h

/-- C5 amended: a run with zero events does not complete — the matrix builder
fails exactly on empty input (and only then), and on empty input the whole run
produces no outputs at all rather than empty tables. -/
theorem C5_empty_run_amended :
    (∀ rows : List RowC, output_SM_file rows = none ↔ rows = [])
    ∧ create_output_files ([] : List RowC) = none := by
  constructor
  · intro rows
    cases rows with
    | nil => simp [output_SM_file]
    | cons a l => simp [output_SM_file]
  · rfl

/-! Helper lemmas about the subgroup recoder. -/

theorem collapseFold_eq_map (pre g : String) :
    ∀ (vals : List String) (rows : List Row),
      collapseFold pre g vals rows =
        rows.map (fun r =>
          if r.groupVal ∈ vals ∧ r.groupVal ≠ g then
            { r with wardTeam := pre ++ r.groupVal, setting := "Mixture" }
          else r) := by
  intro vals
  induction vals with
  | nil =>
    intro rows
    simp [collapseFold]
  | cons v vs ih =>
    intro rows
    have hstep : collapseFold pre g (v :: vs) rows =
        collapseFold pre g vs (if g ≠ v then applyMask pre v rows else rows) := rfl
    rw [hstep]
    by_cases hgv : g = v
    · rw [if_neg (not_not_intro hgv), ih rows]
      refine List.map_congr_left ?_
      intro r _
      by_cases hr : r.groupVal ∈ vs ∧ r.groupVal ≠ g
      · rw [if_pos hr, if_pos ⟨List.mem_cons_of_mem v hr.1, hr.2⟩]
      · rw [if_neg hr, if_neg ?_]
        rintro ⟨hmem, hne⟩
        rcases List.mem_cons.1 hmem with heq | hmem'
        · exact hne (heq.trans hgv.symm)
        · exact hr ⟨hmem', hne⟩
    · rw [if_pos hgv, ih (applyMask pre v rows)]
      unfold applyMask
      rw [List.map_map]
      refine List.map_congr_left ?_
      intro r _
      simp only [Function.comp_apply]
      by_cases hrv : r.groupVal = v
      · rw [if_pos hrv]
        have hne : r.groupVal ≠ g := by
          rw [hrv]
          exact fun h => hgv h.symm
        have hmemc : r.groupVal ∈ v :: vs := by
          rw [hrv]
          exact List.mem_cons_self v vs
        by_cases hs : r.groupVal ∈ vs
        · rw [if_pos ⟨hs, hne⟩, if_pos ⟨hmemc, hne⟩]
        · rw [if_neg (fun hc => hs hc.1), if_pos ⟨hmemc, hne⟩]
          rw [hrv]
      · rw [if_neg hrv]
        by_cases hr : r.groupVal ∈ vs ∧ r.groupVal ≠ g
        · rw [if_pos hr, if_pos ⟨List.mem_cons_of_mem v hr.1, hr.2⟩]
        · rw [if_neg hr, if_neg ?_]
          rintro ⟨hmem, hne⟩
          rcases List.mem_cons.1 hmem with heq | hmem'
          · exact hrv heq
          · exact hr ⟨hmem', hne⟩

theorem collapse_eq_pointwise (pre g : String) (rows : List Row) :
    create_new_ward_and_setting_columns true pre g rows =
      rows.map (fun r =>
        if r.groupVal = g then
          ⟨r.clientID, r.wardTeam, r.setting, r.groupVal, r.losDays, r.wardTeam, r.setting⟩
        else
          ⟨r.clientID, pre ++ r.groupVal, "Mixture", r.groupVal, r.losDays,
           pre ++ r.groupVal, "Mixture"⟩) := by
  unfold create_new_ward_and_setting_columns
  rw [if_pos rfl, collapseFold_eq_map, List.map_map]
  refine List.map_congr_left ?_
  intro r hr
  simp only [Function.comp_apply]
  by_cases hrg : r.groupVal = g
  · rw [if_neg (fun hc => hc.2 hrg), if_pos hrg]
  · have hmem : r.groupVal ∈ uniqueFirst (rows.map (fun x => x.groupVal)) :=
      (mem_uniqueFirst _ _).2 (List.mem_map_of_mem _ hr)
    rw [if_pos ⟨hmem, hrg⟩, if_neg hrg]

/-- Default `Row` used with `List.getD` in positional statements. -/
def defaultRow : Row := ⟨0, "", "", "", 0⟩

/-- Default `RowN` used with `List.getD` in positional statements. -/
def defaultRowN : RowN := ⟨0, "", "", "", 0, "", ""⟩

/-- Subgroup recode as the driver runs it (lines 521 and 455-466): sentinel
rows removed, then the collapse branch of the recoder. -/
def sgRecode (pre g : String) (rows : List Row) : List RowN :=
  create_new_ward_and_setting_columns true pre g (remove_sentinel_rows rows)

theorem sgRecode_labels (pre g : String) (rows : List Row) :
    (sgRecode pre g rows).map (fun r => r.newWardTeam) =
      (remove_sentinel_rows rows).map
        (fun r => if r.groupVal = g then r.wardTeam else pre ++ r.groupVal) := by
  unfold sgRecode
  rw [collapse_eq_pointwise, List.map_map]
  refine List.map_congr_left ?_
  intro r _
  by_cases hrg : r.groupVal = g
  · simp [Function.comp_apply, hrg]
  · simp [Function.comp_apply, hrg]

/-- C6: under the collapse policy with focus value `g` (sentinel rows having
been removed first, as the subgroup driver does): every focus row keeps its
label and setting and every other row is rewritten to the collapsed label
`pre ++ groupValue` with setting `"Mixture"`; distinct excluded values yield
distinct collapsed labels; and the resulting label set is exactly the focus
rows' labels united with the collapsed labels of the distinct group values
other than the focus value and the sentinel. -/
theorem C6_collapse_label_set (rows : List Row) (pre g : String) :
    (sgRecode pre g rows).length = (remove_sentinel_rows rows).length
    ∧ (∀ k, k < (remove_sentinel_rows rows).length →
        (sgRecode pre g rows).getD k defaultRowN =
          (if ((remove_sentinel_rows rows).getD k defaultRow).groupVal = g then
            ⟨((remove_sentinel_rows rows).getD k defaultRow).clientID,
             ((remove_sentinel_rows rows).getD k defaultRow).wardTeam,
             ((remove_sentinel_rows rows).getD k defaultRow).setting,
             ((remove_sentinel_rows rows).getD k defaultRow).groupVal,
             ((remove_sentinel_rows rows).getD k defaultRow).losDays,
             ((remove_sentinel_rows rows).getD k defaultRow).wardTeam,
             ((remove_sentinel_rows rows).getD k defaultRow).setting⟩
          else
            ⟨((remove_sentinel_rows rows).getD k defaultRow).clientID,
             pre ++ ((remove_sentinel_rows rows).getD k defaultRow).groupVal,
             "Mixture",
             ((remove_sentinel_rows rows).getD k defaultRow).groupVal,
             ((remove_sentinel_rows rows).getD k defaultRow).losDays,
             pre ++ ((remove_sentinel_rows rows).getD k defaultRow).groupVal,
             "Mixture"⟩))
    ∧ (∀ v w : String, v ≠ w → pre ++ v ≠ pre ++ w)
    ∧ ((sgRecode pre g rows).map (fun r => r.newWardTeam)).toFinset =
        (((remove_sentinel_rows rows).filter (fun r => decide (r.groupVal = g))).map
            (fun r => r.wardTeam)).toFinset ∪
        (((uniqueFirst (rows.map (fun r => r.groupVal))).filter
            (fun v => decide (v ≠ g ∧ v ≠ "None"))).map (fun v => pre ++ v)).toFinset := by
  refine ⟨?_, ?_, ?_, ?_⟩
  · unfold sgRecode
    rw [collapse_eq_pointwise, List.length_map]
  · intro k hk
    have hk' : k < (sgRecode pre g rows).length := by
      unfold sgRecode
      rw [collapse_eq_pointwise, List.length_map]
      exact hk
    rw [List.getD_eq_getElem _ _ hk', List.getD_eq_getElem _ _ hk]
    unfold sgRecode
    simp only [collapse_eq_pointwise, List.getElem_map]
  · intro v w hvw h
    have := congrArg String.data h
    rw [String.data_append, String.data_append] at this
    exact hvw (String.ext (List.append_cancel_left this))
  · rw [sgRecode_labels]
    ext x
    simp only [List.mem_toFinset, Finset.mem_union, List.mem_map, List.mem_filter,
      decide_eq_true_eq]
    constructor
    · rintro ⟨r, hr, rfl⟩
      by_cases hrg : r.groupVal = g
      · exact Or.inl ⟨r, ⟨hr, by simpa using hrg⟩, by rw [if_pos hrg]⟩
      · refine Or.inr ⟨r.groupVal, ⟨?_, ⟨hrg, ?_⟩⟩, by rw [if_neg hrg]⟩
        · exact (mem_uniqueFirst _ _).2 (List.mem_map_of_mem _ (List.mem_of_mem_filter hr))
        · have := (List.mem_filter.1 hr).2
          simpa using this
    · rintro (⟨r, ⟨hr, hrg⟩, rfl⟩ | ⟨v, ⟨hv, hvg, hvn⟩, rfl⟩)
      · refine ⟨r, hr, ?_⟩
        rw [if_pos (by simpa using hrg)]
      · have hv' : v ∈ rows.map (fun r => r.groupVal) := (mem_uniqueFirst _ _).1 hv
        rcases List.mem_map.1 hv' with ⟨r, hrrows, hrv⟩
        refine ⟨r, List.mem_filter.2 ⟨hrrows, by simp [hrv, hvn]⟩, ?_⟩
        rw [if_neg (by rw [hrv]; exact hvg), hrv]

/-- Concrete rows for the C6 witness: two focus rows, one excluded row, one
sentinel row. -/
def exRows6 : List Row :=
  [⟨1, "N1", "Community", "North", 1⟩,
   ⟨1, "S1", "Inpatient", "South", 2⟩,
   ⟨2, "E1", "OOA", "None", 3⟩,
   ⟨2, "N2", "Community", "North", 4⟩]

/-- Witness for C6: in the concrete run the excluded row at position 1 is
rewritten to the collapsed label with setting `"Mixture"`. -/
theorem C6_collapse_label_set_witness :
    1 < (remove_sentinel_rows exRows6).length
    ∧ (sgRecode "Locality " "North" exRows6).getD 1 defaultRowN =
        ⟨1, "Locality South", "Mixture", "South", 2, "Locality South", "Mixture"⟩ :=
  ⟨by decide,
   ((C6_collapse_label_set exRows6 "Locality " "North").2.1 1 (by decide)).trans (by decide)⟩

/-- C9: in the collapse branch the recoder writes through numpy views of the
run's own `WardTeam` and `Setting` columns, so in the returned dataframe those
original columns are themselves mutated: they coincide with
`newWardTeam`/`newSetting` everywhere, every excluded row's `WardTeam` column
now holds the collapsed label (and `Setting` holds `"Mixture"`), and whenever
the collapsed label differs from the pre-recode label, the pre-recode label is
no longer present at that row. -/
theorem C9_view_write_through (rows : List Row) (pre g : String) :
    (∀ r ∈ create_new_ward_and_setting_columns true pre g rows,
        r.wardTeam = r.newWardTeam ∧ r.setting = r.newSetting)
    ∧ (∀ k, k < rows.length →
        ((rows.getD k defaultRow).groupVal ≠ g →
          ((create_new_ward_and_setting_columns true pre g rows).getD k defaultRowN).wardTeam =
              pre ++ (rows.getD k defaultRow).groupVal
          ∧ ((create_new_ward_and_setting_columns true pre g rows).getD k defaultRowN).setting =
              "Mixture"
          ∧ (pre ++ (rows.getD k defaultRow).groupVal ≠ (rows.getD k defaultRow).wardTeam →
              ((create_new_ward_and_setting_columns true pre g rows).getD k
                  defaultRowN).wardTeam ≠ (rows.getD k defaultRow).wardTeam))) := by
  constructor
  · intro r hr
    rw [collapse_eq_pointwise] at hr
    rcases List.mem_map.1 hr with ⟨r0, _, rfl⟩
    by_cases hrg : r0.groupVal = g
    · rw [if_pos hrg]
      exact ⟨rfl, rfl⟩
    · rw [if_neg hrg]
      exact ⟨rfl, rfl⟩
  · intro k hk hgv
    have hk' : k < (create_new_ward_and_setting_columns true pre g rows).length := by
      rw [collapse_eq_pointwise, List.length_map]
      exact hk
    rw [List.getD_eq_getElem _ _ hk] at hgv
    rw [List.getD_eq_getElem _ _ hk', List.getD_eq_getElem _ _ hk]
    simp only [collapse_eq_pointwise, List.getElem_map]
    rw [if_neg hgv]
    exact ⟨rfl, rfl, fun hne => hne⟩

/-- Concrete rows for the C9 witness: one focus row and one excluded row whose
original label differs from its collapsed label. -/
def exRows9 : List Row :=
  [⟨7, "W1", "Inpatient", "Old Age", 5⟩,
   ⟨8, "W2", "Community", "Adult", 6⟩]

/-- Witness for C9: in the concrete run the excluded row at position 0 has its
`WardTeam` column itself rewritten to the collapsed label, and the pre-recode
label `"W1"` is gone from it. -/
theorem C9_view_write_through_witness :
    0 < exRows9.length
    ∧ (exRows9.getD 0 defaultRow).groupVal ≠ "Adult"
    ∧ ((create_new_ward_and_setting_columns true "General Specialty" "Adult" exRows9).getD 0
        defaultRowN).wardTeam = "General Specialty" ++ (exRows9.getD 0 defaultRow).groupVal
    ∧ ((create_new_ward_and_setting_columns true "General Specialty" "Adult" exRows9).getD 0
        defaultRowN).wardTeam ≠ (exRows9.getD 0 defaultRow).wardTeam :=
  ⟨by decide, by decide,
   ((C9_view_write_through exRows9 "General Specialty" "Adult").2 0 (by decide)
      (by decide)).1,
   (((C9_view_write_through exRows9 "General Specialty" "Adult").2 0 (by decide)
      (by decide)).2.2 (by decide))⟩

/-! Helper lemmas about the transition-matrix builder. -/

theorem zip_tail_nil {codes : List Nat} (h : codes.length ≤ 1) :
    codes.zip codes.tail = [] := by
  cases codes with
  | nil => rfl
  | cons c t =>
    cases t with
    | nil => rfl
    | cons d u => simp at h

theorem foldl_bumpAt_apply :
    ∀ (ps : List (Nat × Nat)) (m : Nat → Nat → Nat) (a b : Nat),
      (ps.foldl bumpAt m) a b =
        m a b + ps.countP (fun p => decide (a = p.1 - 1 ∧ b = p.2 - 1)) := by
  intro ps
  induction ps with
  | nil =>
    intro m a b
    simp
  | cons p ps ih =>
    intro m a b
    rw [List.foldl_cons, ih, List.countP_cons]
    unfold bumpAt
    by_cases h : a = p.1 - 1 ∧ b = p.2 - 1
    · rw [if_pos h, decide_eq_true h]
      simp
      omega
    · rw [if_neg h, decide_eq_false h]
      simp

theorem matSum_zero (n : Nat) : matSum n (fun _ _ => 0) = 0 := by
  simp [matSum]

theorem matSum_bumpAt (n : Nat) (m : Nat → Nat → Nat) (p : Nat × Nat)
    (h1 : p.1 - 1 < n) (h2 : p.2 - 1 < n) :
    matSum n (bumpAt m p) = matSum n m + 1 := by
  unfold matSum bumpAt
  calc ∑ a ∈ Finset.range n, ∑ b ∈ Finset.range n,
        (if a = p.1 - 1 ∧ b = p.2 - 1 then m a b + 1 else m a b)
      = ∑ a ∈ Finset.range n, ∑ b ∈ Finset.range n,
        (m a b + if a = p.1 - 1 ∧ b = p.2 - 1 then 1 else 0) := by
        refine Finset.sum_congr rfl fun a _ => Finset.sum_congr rfl fun b _ => ?_
        by_cases h : a = p.1 - 1 ∧ b = p.2 - 1
        · rw [if_pos h, if_pos h]
        · rw [if_neg h, if_neg h]
          omega
    _ = (∑ a ∈ Finset.range n, ∑ b ∈ Finset.range n, m a b)
        + ∑ a ∈ Finset.range n, ∑ b ∈ Finset.range n,
            (if a = p.1 - 1 ∧ b = p.2 - 1 then 1 else 0) := by
        rw [← Finset.sum_add_distrib]
        exact Finset.sum_congr rfl fun a _ => Finset.sum_add_distrib
    _ = (∑ a ∈ Finset.range n, ∑ b ∈ Finset.range n, m a b) + 1 := by
        congr 1
        have hinner : ∀ a : Nat,
            (∑ b ∈ Finset.range n, if a = p.1 - 1 ∧ b = p.2 - 1 then 1 else 0)
              = if a = p.1 - 1 then 1 else 0 := by
          intro a
          by_cases ha : a = p.1 - 1
          · rw [ha]
            have hcond : ∀ b : Nat,
                (if p.1 - 1 = p.1 - 1 ∧ b = p.2 - 1 then (1 : Nat) else 0) =
                  (if b = p.2 - 1 then (1 : Nat) else 0) := by
              intro b
              by_cases hb : b = p.2 - 1
              · rw [if_pos ⟨rfl, hb⟩, if_pos hb]
              · rw [if_neg (fun hc => hb hc.2), if_neg hb]
            rw [Finset.sum_congr rfl (fun b _ => hcond b),
              Finset.sum_ite_eq' (Finset.range n) (p.2 - 1) (fun _ => 1),
              if_pos (Finset.mem_range.2 h2), if_pos rfl]
          · simp [ha]
        rw [Finset.sum_congr rfl (fun a _ => hinner a)]
        rw [Finset.sum_ite_eq' (Finset.range n) (p.1 - 1) (fun _ => 1)]
        rw [if_pos (Finset.mem_range.2 h1)]

theorem matSum_foldl_bumpAt (n : Nat) :
    ∀ (ps : List (Nat × Nat)) (m : Nat → Nat → Nat),
      (∀ p ∈ ps, p.1 - 1 < n ∧ p.2 - 1 < n) →
      matSum n (ps.foldl bumpAt m) = matSum n m + ps.length := by
  intro ps
  induction ps with
  | nil =>
    intro m _
    simp
  | cons p ps ih =>
    intro m hmem
    rw [List.foldl_cons, ih (bumpAt m p) (fun q hq => hmem q (List.mem_cons_of_mem p hq)),
      matSum_bumpAt n m p (hmem p (List.mem_cons_self p ps)).1
        (hmem p (List.mem_cons_self p ps)).2, List.length_cons]
    omega

theorem smFold_mat_apply (rows : List RowC) :
    ∀ (ids : List Nat) (acc : (Nat → Nat → Nat) × List Nat) (a b : Nat),
      ((ids.foldl (smStep rows) acc).1) a b =
        acc.1 a b + (ids.map (fun id =>
          ((clientCodes rows id).zip (clientCodes rows id).tail).countP
            (fun p => decide (a = p.1 - 1 ∧ b = p.2 - 1)))).sum := by
  intro ids
  induction ids with
  | nil =>
    intro acc a b
    simp
  | cons id ids ih =>
    intro acc a b
    rw [List.foldl_cons, ih, List.map_cons, List.sum_cons, smStep]
    by_cases h : 1 < (clientCodes rows id).length
    · rw [if_pos h]
      show recordClient acc.1 (clientCodes rows id) a b + _ = _
      rw [recordClient, foldl_bumpAt_apply]
      omega
    · rw [if_neg h]
      show acc.1 a b + _ = _
      have hnil : (clientCodes rows id).zip (clientCodes rows id).tail = [] :=
        zip_tail_nil (by omega)
      rw [hnil]
      simp

theorem smFold_singles (rows : List RowC) :
    ∀ (ids : List Nat) (acc : (Nat → Nat → Nat) × List Nat),
      (ids.foldl (smStep rows) acc).2 =
        acc.2 ++ ids.filter (fun id => decide ((clientCodes rows id).length ≤ 1)) := by
  intro ids
  induction ids with
  | nil =>
    intro acc
    simp
  | cons id ids ih =>
    intro acc
    rw [List.foldl_cons, ih, smStep, List.filter_cons]
    by_cases h : 1 < (clientCodes rows id).length
    · rw [if_pos h]
      have hd : (decide ((clientCodes rows id).length ≤ 1)) = false := by
        simp
        omega
      rw [hd]
      simp
    · rw [if_neg h]
      have hd : (decide ((clientCodes rows id).length ≤ 1)) = true := by
        simp
        omega
      rw [hd]
      simp

theorem smFold_matSum (rows : List RowC) (n : Nat)
    (hcode : ∀ r ∈ rows, 1 ≤ r.wardTeamCatCode ∧ r.wardTeamCatCode ≤ n) :
    ∀ (ids : List Nat) (acc : (Nat → Nat → Nat) × List Nat),
      matSum n (ids.foldl (smStep rows) acc).1 =
        matSum n acc.1 + (ids.map (fun id =>
          if 2 ≤ (rows.filter (fun r => decide (r.clientID = id))).length then
            (rows.filter (fun r => decide (r.clientID = id))).length - 1
          else 0)).sum := by
  intro ids
  induction ids with
  | nil =>
    intro acc
    simp
  | cons id ids ih =>
    intro acc
    rw [List.foldl_cons, ih, List.map_cons, List.sum_cons, smStep]
    have hlen : (clientCodes rows id).length =
        (rows.filter (fun r => decide (r.clientID = id))).length := by
      rw [clientCodes, List.length_map]
    by_cases h : 1 < (clientCodes rows id).length
    · rw [if_pos h]
      show matSum n (recordClient acc.1 (clientCodes rows id)) + _ = _
      have hb : ∀ c ∈ clientCodes rows id, 1 ≤ c ∧ c ≤ n := by
        intro c hc
        rcases List.mem_map.1 hc with ⟨r, hr, rfl⟩
        exact hcode r (List.mem_of_mem_filter hr)
      have hmem : ∀ p ∈ (clientCodes rows id).zip (clientCodes rows id).tail,
          p.1 - 1 < n ∧ p.2 - 1 < n := by
        intro p hp
        have hc1 := hb p.1 (List.mem_zip hp).1
        have hc2 := hb p.2 (List.mem_of_mem_tail (List.mem_zip hp).2)
        omega
      rw [recordClient, matSum_foldl_bumpAt n _ acc.1 hmem]
      have hzlen : ((clientCodes rows id).zip (clientCodes rows id).tail).length =
          (clientCodes rows id).length - 1 := by
        rw [List.length_zip, List.length_tail]
        omega
      rw [hzlen]
      rw [if_pos (by omega)]
      omega
    · rw [if_neg h]
      show matSum n acc.1 + _ = _
      rw [if_neg (by omega)]
      omega

theorem sum_map_filter_eq {α : Type} (p : α → Bool) (f : α → Nat) :
    ∀ l : List α, (∀ a ∈ l, p a = false → f a = 0) →
      ((l.filter p).map f).sum = (l.map f).sum := by
  intro l
  induction l with
  | nil =>
    intro _
    rfl
  | cons a l ih =>
    intro h
    rw [List.filter_cons]
    by_cases hp : p a = true
    · rw [if_pos hp]
      simp only [List.map_cons, List.sum_cons]
      rw [ih (fun b hb hb' => h b (List.mem_cons_of_mem a hb) hb')]
    · have hp' : p a = false := by
        revert hp
        cases p a <;> simp
      rw [if_neg hp]
      simp only [List.map_cons, List.sum_cons]
      rw [ih (fun b hb hb' => h b (List.mem_cons_of_mem a hb) hb'),
        h a (List.mem_cons_self a l) hp']
      omega

/-- C1: for every nonempty run whose codes are at least 1 (as the category
encoder guarantees), each entity contributes exactly one increment per
consecutive pair of its chronological code sequence and nothing else — cell
`(a, b)` of the matrix counts exactly the consecutive code pairs `(c, c')`
with `c - 1 = a` and `c' - 1 = b` over all entities — and the total sum of the
matrix equals the sum over entities with at least two events of
`eventCount - 1`, singleton entities contributing 0. -/
theorem C1_matrix_transition_counts (rows : List RowC)
    (hne : rows ≠ [])
    (hcode : ∀ r ∈ rows, 1 ≤ r.wardTeamCatCode) :
    output_SM_file rows = some (smResult rows)
    ∧ (∀ a b : Nat, (smResult rows).mat a b =
        ((uniqueFirst (rows.map (fun r => r.clientID))).map (fun id =>
          ((clientCodes rows id).zip (clientCodes rows id).tail).countP
            (fun p => decide (a = p.1 - 1 ∧ b = p.2 - 1)))).sum)
    ∧ matSum (smResult rows).dim (smResult rows).mat =
        ((uniqueFirst (rows.map (fun r => r.clientID))).map (fun id =>
          if 2 ≤ (rows.filter (fun r => decide (r.clientID = id))).length then
            (rows.filter (fun r => decide (r.clientID = id))).length - 1
          else 0)).sum := by
  refine ⟨?_, ?_, ?_⟩
  · cases rows with
    | nil => exact absurd rfl hne
    | cons r rs => rfl
  · intro a b
    show ((uniqueFirst (rows.map (fun r => r.clientID))).foldl (smStep rows)
        (fun _ _ => 0, [0])).1 a b = _
    rw [smFold_mat_apply]
    simp
  · show matSum (maxCode rows)
        ((uniqueFirst (rows.map (fun r => r.clientID))).foldl (smStep rows)
          (fun _ _ => 0, [0])).1 = _
    have hb : ∀ r ∈ rows, 1 ≤ r.wardTeamCatCode ∧ r.wardTeamCatCode ≤ maxCode rows := by
      intro r hr
      exact ⟨hcode r hr, le_foldl_max_of_mem (List.mem_map_of_mem _ hr) 0⟩
    rw [smFold_matSum rows (maxCode rows) hb, matSum_zero]
    simp

/-- Concrete rows for the C1 witness: one patient with chronological categories
Ward1, Ward2, Ward2, Ward3 (codes 1, 2, 2, 3). -/
def exRowsC1 : List RowC :=
  [⟨1, "Ward1", "Community", "", 1, "Ward1", "Community", 1⟩,
   ⟨1, "Ward2", "Community", "", 1, "Ward2", "Community", 2⟩,
   ⟨1, "Ward2", "Community", "", 1, "Ward2", "Community", 2⟩,
   ⟨1, "Ward3", "Community", "", 1, "Ward3", "Community", 3⟩]

/-- Witness for C1: the four-event patient yields a matrix whose total is 3. -/
theorem C1_matrix_transition_counts_witness :
    exRowsC1 ≠ [] ∧ (∀ r ∈ exRowsC1, 1 ≤ r.wardTeamCatCode)
    ∧ matSum (smResult exRowsC1).dim (smResult exRowsC1).mat = 3 :=
  ⟨by decide, by decide,
   ((C1_matrix_transition_counts exRowsC1 (by decide) (by decide)).2.2).trans (by decide)⟩

/-- C8: for every nonempty run, an entity contributing exactly one event yields
no transition increment — the matrix equals the one accumulated from the
multi-event entities alone — while that entity's id is recorded in the singles
record: the record is exactly the initial scalar 0 followed by the ids of the
single-event entities, each appearing exactly once. -/
theorem C8_singleton_entities (rows : List RowC)
    (hne : rows ≠ []) :
    output_SM_file rows = some (smResult rows)
    ∧ (smResult rows).singles =
        0 :: (uniqueFirst (rows.map (fun r => r.clientID))).filter
          (fun id => decide ((rows.filter (fun r => decide (r.clientID = id))).length = 1))
    ∧ ((uniqueFirst (rows.map (fun r => r.clientID))).filter
        (fun id => decide ((rows.filter (fun r => decide (r.clientID = id))).length = 1))).Nodup
    ∧ (∀ a b : Nat, (smResult rows).mat a b =
        (((uniqueFirst (rows.map (fun r => r.clientID))).filter
            (fun id => decide (2 ≤ (rows.filter (fun r => decide (r.clientID = id))).length))).map
          (fun id => ((clientCodes rows id).zip (clientCodes rows id).tail).countP
            (fun p => decide (a = p.1 - 1 ∧ b = p.2 - 1)))).sum) := by
  refine ⟨?_, ?_, ?_, ?_⟩
  · cases rows with
    | nil => exact absurd rfl hne
    | cons r rs => rfl
  · show ((uniqueFirst (rows.map (fun r => r.clientID))).foldl (smStep rows)
        (fun _ _ => 0, [0])).2 = _
    rw [smFold_singles]
    have hcong : ∀ id ∈ uniqueFirst (rows.map (fun r => r.clientID)),
        (decide ((clientCodes rows id).length ≤ 1)) =
          (decide ((rows.filter (fun r => decide (r.clientID = id))).length = 1)) := by
      intro id hid
      have hlen : (clientCodes rows id).length =
          (rows.filter (fun r => decide (r.clientID = id))).length := by
        rw [clientCodes, List.length_map]
      have hpos : 0 < (rows.filter (fun r => decide (r.clientID = id))).length := by
        have hid' : id ∈ rows.map (fun r => r.clientID) := (mem_uniqueFirst _ _).1 hid
        rcases List.mem_map.1 hid' with ⟨r, hr, rfl⟩
        have hmem : r ∈ rows.filter (fun x => decide (x.clientID = r.clientID)) :=
          List.mem_filter.2 ⟨hr, by simp⟩
        exact List.length_pos.2 (List.ne_nil_of_mem hmem)
      exact decide_eq_decide.2 (by omega)
    rw [List.filter_congr hcong]
    rfl
  · exact (nodup_uniqueFirst _).filter _
  · intro a b
    show ((uniqueFirst (rows.map (fun r => r.clientID))).foldl (smStep rows)
        (fun _ _ => 0, [0])).1 a b = _
    rw [smFold_mat_apply]
    have hdrop : ∀ id ∈ uniqueFirst (rows.map (fun r => r.clientID)),
        (decide (2 ≤ (rows.filter (fun r => decide (r.clientID = id))).length)) = false →
        ((clientCodes rows id).zip (clientCodes rows id).tail).countP
          (fun p => decide (a = p.1 - 1 ∧ b = p.2 - 1)) = 0 := by
      intro id _ hfalse
      have h2 : ¬ 2 ≤ (rows.filter (fun r => decide (r.clientID = id))).length :=
        of_decide_eq_false hfalse
      have hle : (clientCodes rows id).length ≤ 1 := by
        rw [clientCodes, List.length_map]
        omega
      rw [zip_tail_nil hle]
      rfl
    rw [sum_map_filter_eq _ _ _ hdrop]
    simp

/-- Concrete rows for the C8 witness: client 5 has one admission, client 6 has
two. -/
def exRowsC8 : List RowC :=
  [⟨5, "A", "s", "", 0, "A", "s", 1⟩,
   ⟨6, "A", "s", "", 0, "A", "s", 1⟩,
   ⟨6, "B", "s", "", 0, "B", "s", 2⟩]

/-- Witness for C8: the singles record of the concrete run is the initial
scalar 0 followed by exactly the singleton client id 5. -/
theorem C8_singleton_entities_witness :
    exRowsC8 ≠ [] ∧ (smResult exRowsC8).singles = [0, 5] :=
  ⟨by decide, ((C8_singleton_entities exRowsC8 (by decide)).2.1).trans (by decide)⟩

/-- C10: for every nonempty run, the transition matrix's side length — the
maximum assigned category code, from which `np.zeros` sizes the matrix — equals
the number of distinct category labels in the run's event set, and every
assigned code `c` satisfies `1 ≤ c ≤ side`, so `c - 1` indexes a valid row and
column of the matrix. -/
theorem C10_matrix_square_side (rows : List RowN) (hne : rows ≠ []) :
    maxCode (categorise_columns rows) = (rows.map (fun r => r.newWardTeam)).toFinset.card
    ∧ (∀ r ∈ categorise_columns rows,
        1 ≤ r.wardTeamCatCode
        ∧ r.wardTeamCatCode ≤ maxCode (categorise_columns rows)
        ∧ r.wardTeamCatCode - 1 < maxCode (categorise_columns rows)) := by
  have hcode_mem : ∀ r ∈ categorise_columns rows,
      r.wardTeamCatCode ≤ maxCode (categorise_columns rows) := by
    intro r hr
    exact le_foldl_max_of_mem (List.mem_map_of_mem _ hr) 0
  have hcode_form : ∀ r ∈ categorise_columns rows,
      ∃ r0 ∈ rows, r.wardTeamCatCode =
        catCode (rows.map (fun x => x.newWardTeam)) r0.newWardTeam ∧
        r0.newWardTeam ∈ rows.map (fun x => x.newWardTeam) := by
    intro r hr
    rcases List.mem_map.1 hr with ⟨r0, hr0, rfl⟩
    exact ⟨r0, hr0, rfl, List.mem_map_of_mem _ hr0⟩
  have hupper : maxCode (categorise_columns rows) ≤
      (rows.map (fun r => r.newWardTeam)).toFinset.card := by
    rcases foldl_max_mem ((categorise_columns rows).map (fun r => r.wardTeamCatCode)) 0
      with hm | hm
    · rcases List.mem_map.1 hm with ⟨r, hr, hval⟩
      rcases hcode_form r hr with ⟨r0, _, hcv, hmem⟩
      show ((categorise_columns rows).map (fun r => r.wardTeamCatCode)).foldl max 0 ≤ _
      rw [← hval, hcv]
      exact catCode_le_card hmem
    · show ((categorise_columns rows).map (fun r => r.wardTeamCatCode)).foldl max 0 ≤ _
      rw [hm]
      exact Nat.zero_le _
  have hlower : (rows.map (fun r => r.newWardTeam)).toFinset.card ≤
      maxCode (categorise_columns rows) := by
    have hN1 : 1 ≤ (rows.map (fun r => r.newWardTeam)).toFinset.card := by
      cases rows with
      | nil => exact absurd rfl hne
      | cons r rs =>
        refine Finset.card_pos.2 ⟨r.newWardTeam, ?_⟩
        simp
    have hmemIcc : (rows.map (fun r => r.newWardTeam)).toFinset.card ∈
        Finset.Icc 1 (rows.map (fun r => r.newWardTeam)).toFinset.card :=
      Finset.mem_Icc.2 ⟨hN1, le_rfl⟩
    rw [← catCode_image] at hmemIcc
    rcases Finset.mem_image.1 hmemIcc with ⟨a, ha, hcode⟩
    have ha' : a ∈ rows.map (fun r => r.newWardTeam) := List.mem_toFinset.1 ha
    rcases List.mem_map.1 ha' with ⟨r0, hr0, rfl⟩
    have hrc : (⟨r0.clientID, r0.wardTeam, r0.setting, r0.groupVal, r0.losDays, r0.newWardTeam,
        r0.newSetting, catCode (rows.map (fun x => x.newWardTeam)) r0.newWardTeam⟩ : RowC) ∈
        categorise_columns rows := List.mem_map_of_mem _ hr0
    have hle := le_foldl_max_of_mem
      (List.mem_map_of_mem (fun r : RowC => r.wardTeamCatCode) hrc) 0
    rw [← hcode]
    exact hle
  refine ⟨le_antisymm hupper hlower, ?_⟩
  intro r hr
  rcases hcode_form r hr with ⟨r0, _, hcv, hmem⟩
  have h1 : 1 ≤ r.wardTeamCatCode := by
    rw [hcv]
    exact one_le_catCode _ _
  have h2 := hcode_mem r hr
  exact ⟨h1, h2, by omega⟩

/-- Concrete rows for the C10 witness: three events over two distinct labels. -/
def exRowsN10 : List RowN :=
  [⟨1, "B", "s", "", 0, "B", "s"⟩,
   ⟨2, "A", "s", "", 0, "A", "s"⟩,
   ⟨3, "B", "s", "", 0, "B", "s"⟩]

/-- Witness for C10: the concrete run has two distinct labels and its matrix
side is 2. -/
theorem C10_matrix_square_side_witness :
    exRowsN10 ≠ [] ∧ maxCode (categorise_columns exRowsN10) = 2 :=
  ⟨by decide,
   ((C10_matrix_square_side exRowsN10 (by decide)).1).trans (by decide)⟩

/-! Helper lemmas about the node-file builder. -/

theorem toFinset_map' {α β : Type} [DecidableEq α] [DecidableEq β] (l : List α) (f : α → β) :
    (l.map f).toFinset = l.toFinset.image f := by
  ext x
  simp [List.mem_toFinset, List.mem_map, Finset.mem_image]

theorem card_image_lt {α β : Type} [DecidableEq α] [DecidableEq β] {s : Finset α} {f : α → β}
    {t1 t2 : α} (h1 : t1 ∈ s) (h2 : t2 ∈ s) (hne : t1 ≠ t2) (hf : f t1 = f t2) :
    (s.image f).card < s.card := by
  have himg : s.image f = (s.erase t1).image f := by
    ext x
    simp only [Finset.mem_image, Finset.mem_erase]
    constructor
    · rintro ⟨t, ht, rfl⟩
      by_cases htt : t = t1
      · exact ⟨t2, ⟨fun h => hne h.symm, h2⟩, by rw [htt, hf]⟩
      · exact ⟨t, ⟨htt, ht⟩, rfl⟩
    · rintro ⟨t, ⟨_, ht⟩, rfl⟩
      exact ⟨t, ht, rfl⟩
  rw [himg]
  calc ((s.erase t1).image f).card ≤ (s.erase t1).card := Finset.card_image_le
    _ < s.card := Finset.card_erase_lt_of_mem h1

theorem length_sortedNodeTriples (rows : List RowC) :
    (sortedNodeTriples rows).length =
      (rows.map (fun r => (r.wardTeamCatCode, r.newWardTeam, r.newSetting))).toFinset.card := by
  unfold sortedNodeTriples nodeTriples
  rw [(List.perm_insertionSort _ _).length_eq, length_uniqueFirst]

theorem length_sortedCodes (rows : List RowC) :
    (sortedCodes rows).length = (rows.map (fun r => r.wardTeamCatCode)).toFinset.card := by
  unfold sortedCodes
  rw [(List.perm_insertionSort _ _).length_eq, length_uniqueFirst]

/-- Concrete rows for the C7 counterexample: one label `"W"` with settings
`"A"` and `"B"`. -/
def exRowsC7 : List RowC :=
  [⟨1, "W", "A", "", 0, "W", "A", 1⟩,
   ⟨2, "W", "B", "", 0, "W", "B", 1⟩]

set_option maxRecDepth 8192 in
/-- C7 counterexample: the claim says the label-to-setting ambiguity is
detected as an explicit assertion surfaced to the caller with the offending
label.  On the concrete ambiguous run `exRowsC7` — offending label `"W"` —
the node stage instead raises numpy's `vstack` shape-mismatch `ValueError`:
the surfaced error is the fixed shape message, in which the offending label
`"W"` does not occur anywhere. -/
theorem C7_ambiguous_setting_counterexample :
    (∃ r ∈ exRowsC7, ∃ s ∈ exRowsC7,
      r.newWardTeam = s.newWardTeam ∧ r.newSetting ≠ s.newSetting ∧ r.newWardTeam = "W")
    ∧ output_Node_file_exc exRowsC7 = Except.error numpyVstackMsg
    ∧ ¬ ("W".data <:+: numpyVstackMsg.data) := by
  refine ⟨by decide, ?_, by decide⟩
  have hne' : ¬ ((sortedNodeTriples exRowsC7).length = (sortedCodes exRowsC7).length) := by
    decide
  show (if (sortedNodeTriples exRowsC7).length = (sortedCodes exRowsC7).length then
      Except.ok (((sortedNodeTriples exRowsC7).zip (sortedCodes exRowsC7)).map (fun q =>
        (⟨q.1.1, q.1.2.1, meanList (groupLoS exRowsC7 q.2), medianList (groupLoS exRowsC7 q.2),
          q.1.2.2⟩ : NodeRow)))
    else Except.error numpyVstackMsg) = Except.error numpyVstackMsg
  rw [if_neg hne']

/-- C7 amended: if some category label carries two different setting values in
the event set reaching the node stage (codes being per-label constant, as the
encoder guarantees), the node-file builder does fail fatally for that run —
no node table is produced and the ambiguity is never silently resolved — but
the failure is numpy's `vstack` shape-mismatch `ValueError` at line 253,
surfaced with only its fixed shape message and no offending label, not an
explicit assertion naming the label. -/
theorem C7_ambiguous_setting_shape_error (rows : List RowC)
    (hcodes : ∀ r ∈ rows, ∀ s ∈ rows,
      (r.wardTeamCatCode = s.wardTeamCatCode ↔ r.newWardTeam = s.newWardTeam))
    (hamb : ∃ r ∈ rows, ∃ s ∈ rows,
      r.newWardTeam = s.newWardTeam ∧ r.newSetting ≠ s.newSetting) :
    output_Node_file_exc rows = Except.error numpyVstackMsg
    ∧ output_Node_file rows = none := by
  rcases hamb with ⟨r, hr, s, hs, hlab, hset⟩
  have hproj : (rows.map (fun x => x.wardTeamCatCode)).toFinset =
      ((rows.map (fun x => (x.wardTeamCatCode, x.newWardTeam, x.newSetting))).toFinset).image
        (fun t => t.1) := by
    rw [← toFinset_map', List.map_map]
    rfl
  have ht1 : (r.wardTeamCatCode, r.newWardTeam, r.newSetting) ∈
      (rows.map (fun x => (x.wardTeamCatCode, x.newWardTeam, x.newSetting))).toFinset :=
    List.mem_toFinset.2 (List.mem_map_of_mem _ hr)
  have ht2 : (s.wardTeamCatCode, s.newWardTeam, s.newSetting) ∈
      (rows.map (fun x => (x.wardTeamCatCode, x.newWardTeam, x.newSetting))).toFinset :=
    List.mem_toFinset.2 (List.mem_map_of_mem _ hs)
  have htne : (r.wardTeamCatCode, r.newWardTeam, r.newSetting) ≠
      (s.wardTeamCatCode, s.newWardTeam, s.newSetting) := by
    intro h
    exact hset (congrArg (fun t : Nat × String × String => t.2.2) h)
  have hfeq : (r.wardTeamCatCode, r.newWardTeam, r.newSetting).1 =
      (s.wardTeamCatCode, s.newWardTeam, s.newSetting).1 :=
    (hcodes r hr s hs).2 hlab
  have hlt := @card_image_lt (Nat × String × String) Nat _ _
    ((rows.map (fun x => (x.wardTeamCatCode, x.newWardTeam, x.newSetting))).toFinset)
    (fun t => t.1) _ _ ht1 ht2 htne hfeq
  have hne' : ¬ ((sortedNodeTriples rows).length = (sortedCodes rows).length) := by
    rw [length_sortedNodeTriples, length_sortedCodes, hproj]
    omega
  have hexc : output_Node_file_exc rows = Except.error numpyVstackMsg := by
    show (if (sortedNodeTriples rows).length = (sortedCodes rows).length then
        Except.ok (((sortedNodeTriples rows).zip (sortedCodes rows)).map (fun q =>
          (⟨q.1.1, q.1.2.1, meanList (groupLoS rows q.2), medianList (groupLoS rows q.2),
            q.1.2.2⟩ : NodeRow)))
      else Except.error numpyVstackMsg) = Except.error numpyVstackMsg
    rw [if_neg hne']
  refine ⟨hexc, ?_⟩
  unfold output_Node_file
  rw [hexc]
  rfl

/-- Concrete rows for the C7 witness: one label `"V"` with settings `"A"` and
`"B"`. -/
def exRowsC7b : List RowC :=
  [⟨3, "V", "A", "", 0, "V", "A", 1⟩,
   ⟨4, "V", "B", "", 0, "V", "B", 1⟩]

/-- Witness for C7 (amended): on a concrete ambiguous run the node stage
surfaces the label-free shape error and yields no table. -/
theorem C7_ambiguous_setting_shape_error_witness :
    (∃ r ∈ exRowsC7b, ∃ s ∈ exRowsC7b,
      r.newWardTeam = s.newWardTeam ∧ r.newSetting ≠ s.newSetting)
    ∧ output_Node_file exRowsC7b = none :=
  ⟨by decide, (C7_ambiguous_setting_shape_error exRowsC7b (by decide) (by decide)).2⟩
